import Mathlib

/-!
# Verification of the anchor-generation clustering engine

Shallow embedding of `generate_anchors.py` (functions `run_k_mean` and
`k_mean_cluster`) over exact rational arithmetic.  Python floats are
modelled as `ℚ`; Python runtime errors (`IndexError` from indexing an
empty `groups` list, `ZeroDivisionError` from `iou / counter`) are
modelled with `Except`.  The process-wide random state used for centroid
initialisation is modelled as an explicitly injected list of indices.
The unbounded `while True` loop is modelled with explicit fuel; running
out of fuel yields `none` (the loop has not converged yet), any other
outcome is exactly what the program would produce.
-/

namespace GenerateAnchors

/-- The `Box` class of `utils.box`: center x, center y, width, height. -/
structure Box where
  x : ℚ
  y : ℚ
  w : ℚ
  h : ℚ
deriving Repr, DecidableEq

/-- Modelled from the spec: `box_iou` of `utils.box` (the file is not part
of the sources here).  Per spec §4.1: intersection width `min(a.w, b.w)`,
intersection height `min(a.h, b.h)`, intersection area their product,
union area `a.w·a.h + b.w·b.h − intersection`, result
`intersection / union`; undefined when the union area is 0 (modelled with
Lean's division-by-zero convention `q / 0 = 0`). -/
def box_iou (a b : Box) : ℚ :=
  let iw := min a.w b.w
  let ih := min a.h b.h
  let inter := iw * ih
  let union := a.w * a.h + b.w * b.h - inter
  inter / union

/-- Runtime errors of `run_k_mean`: `groups[group_index]` /
`anchors[group_index]` out of range, and `iou / counter` with
`counter == 0`. -/
inductive KError where
  | indexError
  | zeroDivisionError
deriving Repr, DecidableEq

/-- The inner `for i, centroid in enumerate(centroids)` scan of
`run_k_mean`: carries `(min_distance, group_index)` and the index `i` of
the next centroid; a centroid only takes over on a strictly smaller
distance (`if distance < min_distance`). -/
def assignAux (box : Box) : List Box → Nat → ℚ × Nat → ℚ × Nat
  | [], _, acc => acc
  | c :: cs, i, (minD, gi) =>
      let distance := 1 - box_iou box c
      if distance < minD then assignAux box cs (i + 1) (distance, i)
      else assignAux box cs (i + 1) (minD, gi)

/-- The assignment of one ground-truth box in `run_k_mean`:
`min_distance = 1`, `group_index = 0`, then the centroid scan. -/
def assign (centroids : List Box) (box : Box) : ℚ × Nat :=
  assignAux box centroids 0 (1, 0)

/-- The per-box mutable state of `run_k_mean`: the `groups` buckets, the
`anchors` accumulators and the running `loss`. -/
structure KState where
  groups : List (List Box)
  anchors : List Box
  loss : ℚ
deriving Repr, DecidableEq

/-- The state of `run_k_mean` after the `for i in range(n_anchors)`
initialisation: `n_anchors` empty groups, `n_anchors` anchors
`Box(0, 0, 0, 0)`, `loss = 0`. -/
def initState (n_anchors : Nat) : KState :=
  ⟨List.replicate n_anchors [], List.replicate n_anchors ⟨0, 0, 0, 0⟩, 0⟩

/-- The body of the `for box in boxes` loop of `run_k_mean`:
`groups[group_index].append(box)`, `loss += min_distance`,
`anchors[group_index].w += box.w`, `anchors[group_index].h += box.h`;
an out-of-range `group_index` raises `IndexError`. -/
def processBox (centroids : List Box) (s : KState) (box : Box) :
    Except KError KState :=
  let r := assign centroids box
  match s.groups.get? r.2, s.anchors.get? r.2 with
  | some g, some a =>
      .ok ⟨s.groups.set r.2 (g ++ [box]),
           s.anchors.set r.2 ⟨a.x, a.y, a.w + box.w, a.h + box.h⟩,
           s.loss + r.1⟩
  | _, _ => .error .indexError

/-- The second `for i in range(n_anchors)` loop of `run_k_mean`: anchors
of empty groups are skipped (`continue`), the others are divided by the
group size. -/
def updateAnchors (groups : List (List Box)) (anchors : List Box) : List Box :=
  List.zipWith
    (fun g a =>
      if g.length = 0 then a
      else ⟨a.x, a.y, a.w / (g.length : ℚ), a.h / (g.length : ℚ)⟩)
    groups anchors

/-- The final double loop of `run_k_mean`: `iou += box_iou(gt_box, anchor)`
over `for i, anchor in enumerate(anchors): for gt_box in groups[i]`. -/
def iouSum (groups : List (List Box)) (anchors : List Box) : ℚ :=
  (anchors.zip groups).foldl
    (fun acc p => p.2.foldl (fun acc2 gt_box => acc2 + box_iou gt_box p.1) acc) 0

/-- The `counter` of `run_k_mean`: the total number of `(group, member)`
pairs visited by the final double loop. -/
def groupCounter (groups : List (List Box)) : Nat :=
  (groups.map List.length).sum

/-- `run_k_mean(n_anchors, boxes, centroids)` of `generate_anchors.py`:
one k-means step.  Returns `(anchors, avg_iou, loss)`; raises
`IndexError` when a `group_index` is out of range and
`ZeroDivisionError` when `counter` is 0 at `avg_iou = iou / counter`. -/
def run_k_mean (n_anchors : Nat) (boxes : List Box) (centroids : List Box) :
    Except KError (List Box × ℚ × ℚ) := do
  let s ← boxes.foldlM (processBox centroids) (initState n_anchors)
  let anchors := updateAnchors s.groups s.anchors
  let counter := groupCounter s.groups
  if counter = 0 then .error .zeroDivisionError
  else .ok (anchors, iouSum s.groups anchors / (counter : ℚ), s.loss)

/-- The `while True` loop of `k_mean_cluster`, with explicit fuel: each
round runs `run_k_mean` on the anchors just produced, stops with the
current anchors and `avg_iou` as soon as `abs(loss - curr_loss)` drops
below `loss_convergence`, otherwise continues with `loss = curr_loss`.
`none` means the fuel ran out before convergence. -/
def kMeanLoop (fuel : Nat) (k : Nat) (gt_boxes : List Box)
    (loss_convergence : ℚ) (anchors : List Box) (loss : ℚ) :
    Except KError (Option (List Box × ℚ)) :=
  match fuel with
  | 0 => .ok none
  | fuel + 1 => do
      let r ← run_k_mean k gt_boxes anchors
      if |loss - r.2.2| < loss_convergence then .ok (some (r.1, r.2.1))
      else kMeanLoop fuel k gt_boxes loss_convergence r.1 r.2.2

/-- `k_mean_cluster(k, gt_boxes, loss_convergence)` of
`generate_anchors.py`, the randomness of `np.random.choice` injected as
the explicit index list `centroid_indices`: build the initial centroids
`gt_boxes[centroid_index]`, run one seeding `run_k_mean` whose loss is
not checked for convergence, then iterate. -/
def k_mean_cluster (fuel : Nat) (k : Nat) (gt_boxes : List Box)
    (centroid_indices : List Nat) (loss_convergence : ℚ) :
    Except KError (Option (List Box × ℚ)) := do
  let centroids := centroid_indices.map (fun i => gt_boxes.getD i ⟨0, 0, 0, 0⟩)
  let r ← run_k_mean k gt_boxes centroids
  kMeanLoop fuel k gt_boxes loss_convergence r.1 r.2.2

/-- The mean-width/mean-height box of a box list (the anchor produced by
a single-group clustering step). -/
def meanBox (boxes : List Box) : Box :=
  ⟨0, 0, (boxes.map Box.w).sum / (boxes.length : ℚ),
   (boxes.map Box.h).sum / (boxes.length : ℚ)⟩

/-- A box is valid per the spec's input contract: non-negative width and
height, positive area. -/
def validBox (b : Box) : Prop := 0 ≤ b.w ∧ 0 ≤ b.h ∧ 0 < b.w * b.h

/-- Invariant of the per-box fold: group/anchor counts stay at
`n`, each anchor accumulator holds exactly the width/height sums of its
group, and group members come from the processed boxes. -/
structure Inv (n : Nat) (allowed : List Box) (s : KState) : Prop where
  glen : s.groups.length = n
  alen : s.anchors.length = n
  anch : ∀ i g, s.groups.get? i = some g →
      s.anchors.get? i = some ⟨0, 0, (g.map Box.w).sum, (g.map Box.h).sum⟩
  mem : ∀ i g, s.groups.get? i = some g → ∀ b, b ∈ g → b ∈ allowed

/-! ## Helper lemmas -/

@[simp]
theorem pure_eq_ok {ε α : Type} (a : α) :
    (pure a : Except ε α) = Except.ok a := rfl

@[simp]
theorem ok_bind {ε α β : Type} (a : α) (f : α → Except ε β) :
    (Except.ok a >>= f : Except ε β) = f a := rfl

@[simp]
theorem err_bind {ε α β : Type} (e : ε) (f : α → Except ε β) :
    (Except.error e >>= f : Except ε β) = Except.error e := rfl

/-- `box_iou` lies in `[0, 1]` as soon as both boxes have non-negative
width and height and at least one has positive area. -/
theorem box_iou_bounds (a b : Box) (haw : 0 ≤ a.w) (hah : 0 ≤ a.h)
    (hbw : 0 ≤ b.w) (hbh : 0 ≤ b.h) (hpos : 0 < a.w * a.h ∨ 0 < b.w * b.h) :
    0 ≤ box_iou a b ∧ box_iou a b ≤ 1 := by
  have hiw : 0 ≤ min a.w b.w := le_min haw hbw
  have hih : 0 ≤ min a.h b.h := le_min hah hbh
  have hinter : 0 ≤ min a.w b.w * min a.h b.h := mul_nonneg hiw hih
  have hia : min a.w b.w * min a.h b.h ≤ a.w * a.h :=
    mul_le_mul (min_le_left _ _) (min_le_left _ _) hih haw
  have hib : min a.w b.w * min a.h b.h ≤ b.w * b.h :=
    mul_le_mul (min_le_right _ _) (min_le_right _ _) hih hbw
  have hua : a.w * a.h ≤ a.w * a.h + b.w * b.h - min a.w b.w * min a.h b.h := by
    have := sub_nonneg.mpr hib
    linarith
  have hub : b.w * b.h ≤ a.w * a.h + b.w * b.h - min a.w b.w * min a.h b.h := by
    have := sub_nonneg.mpr hia
    linarith
  have hupos : 0 < a.w * a.h + b.w * b.h - min a.w b.w * min a.h b.h := by
    rcases hpos with h | h
    · exact lt_of_lt_of_le h hua
    · exact lt_of_lt_of_le h hub
  simp only [box_iou]
  constructor
  · exact div_nonneg hinter (le_of_lt hupos)
  · rw [div_le_one hupos]
    exact le_trans hia hua

/-- Full description of the centroid scan `assignAux`: the returned
distance never exceeds the incoming bound and is a lower bound of all
scanned distances; either nothing beat the bound (result unchanged) or
the result is the first strict improvement of the running minimum. -/
theorem assignAux_spec (b : Box) :
    ∀ (cs : List Box) (i gi : Nat) (minD : ℚ),
      (assignAux b cs i (minD, gi)).1 ≤ minD ∧
      (∀ j c, cs.get? j = some c →
        (assignAux b cs i (minD, gi)).1 ≤ 1 - box_iou b c) ∧
      (((assignAux b cs i (minD, gi)).1 = minD ∧
          (assignAux b cs i (minD, gi)).2 = gi) ∨
       ((assignAux b cs i (minD, gi)).1 < minD ∧
          ∃ j c, cs.get? j = some c ∧
            (assignAux b cs i (minD, gi)).2 = i + j ∧
            (assignAux b cs i (minD, gi)).1 = 1 - box_iou b c ∧
            ∀ j' c', j' < j → cs.get? j' = some c' →
              (assignAux b cs i (minD, gi)).1 < 1 - box_iou b c')) := by
  intro cs
  induction cs with
  | nil =>
      intro i gi minD
      refine ⟨le_refl _, ?_, Or.inl ⟨rfl, rfl⟩⟩
      intro j c hj
      simp [List.get?] at hj
  | cons c cs ih =>
      intro i gi minD
      by_cases hd : 1 - box_iou b c < minD
      · have h := ih (i + 1) i (1 - box_iou b c)
        obtain ⟨h1, h2, h3⟩ := h
        have hunf : assignAux b (c :: cs) i (minD, gi)
            = assignAux b cs (i + 1) (1 - box_iou b c, i) := by
          simp only [assignAux]
          rw [if_pos hd]
        rw [hunf]
        refine ⟨le_of_lt (lt_of_le_of_lt h1 hd), ?_, ?_⟩
        · intro j c' hj
          cases j with
          | zero =>
              simp only [List.get?] at hj
              cases hj
              exact h1
          | succ j =>
              simp only [List.get?] at hj
              exact h2 j c' hj
        · rcases h3 with ⟨he, hg⟩ | ⟨hlt, j, c', hj, hgi, hval, hfirst⟩
          · refine Or.inr ⟨lt_of_le_of_lt (le_of_eq he) hd, 0, c, rfl, ?_, ?_, ?_⟩
            · rw [hg]
              omega
            · rw [he]
            · intro j' c'' hj' _
              omega
          · refine Or.inr ⟨lt_trans hlt hd, j + 1, c', hj, ?_, hval, ?_⟩
            · rw [hgi]
              omega
            · intro j' c'' hj' hget
              cases j' with
              | zero =>
                  simp only [List.get?] at hget
                  cases hget
                  exact hlt
              | succ j' =>
                  simp only [List.get?] at hget
                  exact hfirst j' c'' (by omega) hget
      · have h := ih (i + 1) gi minD
        obtain ⟨h1, h2, h3⟩ := h
        have hunf : assignAux b (c :: cs) i (minD, gi)
            = assignAux b cs (i + 1) (minD, gi) := by
          simp only [assignAux]
          rw [if_neg hd]
        rw [hunf]
        refine ⟨h1, ?_, ?_⟩
        · intro j c' hj
          cases j with
          | zero =>
              simp only [List.get?] at hj
              cases hj
              exact le_trans h1 (le_of_not_lt hd)
          | succ j =>
              simp only [List.get?] at hj
              exact h2 j c' hj
        · rcases h3 with ⟨he, hg⟩ | ⟨hlt, j, c', hj, hgi, hval, hfirst⟩
          · exact Or.inl ⟨he, hg⟩
          · refine Or.inr ⟨hlt, j + 1, c', hj, ?_, hval, ?_⟩
            · rw [hgi]
              omega
            · intro j' c'' hj' hget
              cases j' with
              | zero =>
                  simp only [List.get?] at hget
                  cases hget
                  exact lt_of_lt_of_le hlt (le_of_not_lt hd)
              | succ j' =>
                  simp only [List.get?] at hget
                  exact hfirst j' c'' (by omega) hget

/-- The group index chosen by `assign` is the default 0 or a valid
centroid index. -/
theorem assign_index (centroids : List Box) (b : Box) :
    (assign centroids b).2 = 0 ∨ (assign centroids b).2 < centroids.length := by
  have h := (assignAux_spec b centroids 0 0 1).2.2
  rcases h with ⟨_, hg⟩ | ⟨_, j, c, hj, hgi, _, _⟩
  · exact Or.inl hg
  · right
    rw [assign, hgi]
    obtain ⟨hlen, -⟩ := List.get?_eq_some.mp hj
    omega

/-! ## C1: assignment chooses the minimum-distance centroid -/

/-- C1: in `run_k_mean`, every ground-truth box is assigned by `assign`
to the centroid of minimum IoU-distance `1 − box_iou`: the returned
minimum is at most 1 and at most every centroid's distance; whenever it
beats the initial bound 1 the chosen index is the first centroid
attaining it (ties go to the earliest index); and a box at distance
exactly 1 from every centroid stays in group 0 with distance 1. -/
theorem spec_C1 (centroids : List Box) (b : Box) :
    (assign centroids b).1 ≤ 1 ∧
    (∀ j c, centroids.get? j = some c →
      (assign centroids b).1 ≤ 1 - box_iou b c) ∧
    ((assign centroids b).1 < 1 →
      ∃ c, centroids.get? (assign centroids b).2 = some c ∧
        (assign centroids b).1 = 1 - box_iou b c ∧
        ∀ j c', j < (assign centroids b).2 → centroids.get? j = some c' →
          (assign centroids b).1 < 1 - box_iou b c') ∧
    ((∀ j c, centroids.get? j = some c → 1 - box_iou b c = 1) →
      assign centroids b = (1, 0)) := by
  obtain ⟨h1, h2, h3⟩ := assignAux_spec b centroids 0 0 1
  refine ⟨h1, h2, ?_, ?_⟩
  · intro hlt
    rcases h3 with ⟨he, _⟩ | ⟨_, j, c, hj, hgi, hval, hfirst⟩
    · rw [assign] at hlt
      rw [he] at hlt
      exact absurd hlt (lt_irrefl 1)
    · refine ⟨c, ?_, hval, ?_⟩
      · rw [assign, hgi]
        simpa using hj
      · intro j' c' hj' hget
        rw [assign, hgi] at hj'
        exact hfirst j' c' (by omega) hget
  · intro hall
    rcases h3 with ⟨he, hg⟩ | ⟨hlt, j, c, hj, _, hval, _⟩
    · rw [assign]
      rw [Prod.ext_iff]
      exact ⟨he, hg⟩
    · rw [hall j c hj] at hval
      rw [hval] at hlt
      exact absurd hlt (lt_irrefl 1)

/-- Witness for C1 at a concrete input: the box `(1, 1)` has IoU 0 with
the single zero-sized centroid, so its distance is 1 everywhere and it
stays in group 0 with min-distance 1. -/
theorem spec_C1_witness :
    assign [⟨0, 0, 0, 0⟩] ⟨0, 0, 1, 1⟩ = (1, 0) := by
  apply (spec_C1 [⟨0, 0, 0, 0⟩] ⟨0, 0, 1, 1⟩).2.2.2
  intro j c hj
  cases j with
  | zero =>
      simp only [List.get?] at hj
      cases hj
      norm_num [box_iou]
  | succ j =>
      simp [List.get?] at hj

/-! ## C9: n_anchors = 0 with a non-empty box list raises IndexError -/

/-- C9: calling `run_k_mean` with `n_anchors = 0` and a non-empty box
list fails with an out-of-range index error: zero groups were created
but the assignment loop still indexes `groups[group_index]`. -/
theorem spec_C9 (boxes : List Box) (centroids : List Box)
    (h : boxes ≠ []) :
    run_k_mean 0 boxes centroids = .error .indexError := by
  cases boxes with
  | nil => exact absurd rfl h
  | cons b rest =>
      have hpb : processBox centroids (initState 0) b = .error .indexError := by
        simp [processBox, initState, List.get?]
      simp [run_k_mean, List.foldlM, hpb]

/-- Witness for C9: the concrete call with one box and zero anchors
raises the index error. -/
theorem spec_C9_witness :
    run_k_mean 0 [⟨0, 0, 1, 1⟩] [⟨0, 0, 1, 1⟩] = .error .indexError :=
  spec_C9 [⟨0, 0, 1, 1⟩] [⟨0, 0, 1, 1⟩] (by simp)

/-! ## The per-box fold: elimination and invariants -/

/-- A successful `processBox` is exactly the state transformation of the
loop body. -/
theorem processBox_ok_elim {centroids : List Box} {s s' : KState} {b : Box}
    (h : processBox centroids s b = .ok s') :
    ∃ g a, s.groups.get? (assign centroids b).2 = some g ∧
      s.anchors.get? (assign centroids b).2 = some a ∧
      s' = ⟨s.groups.set (assign centroids b).2 (g ++ [b]),
            s.anchors.set (assign centroids b).2 ⟨a.x, a.y, a.w + b.w, a.h + b.h⟩,
            s.loss + (assign centroids b).1⟩ := by
  simp only [processBox] at h
  split at h
  next g a hg ha =>
      cases h
      exact ⟨g, a, hg, ha, rfl⟩
  next => cases h

/-- `processBox` can only fail with the index error. -/
theorem processBox_error_eq {centroids : List Box} {s : KState} {b : Box}
    {e : KError} (h : processBox centroids s b = .error e) :
    e = KError.indexError := by
  simp only [processBox] at h
  split at h
  next => cases h
  next =>
      cases h
      rfl

/-- Appending one element to an existing bucket raises the total group
size by one. -/
theorem groupCounter_set (l : List (List Box)) :
    ∀ (i : Nat) (g : List Box) (b : Box), l.get? i = some g →
      groupCounter (l.set i (g ++ [b])) = groupCounter l + 1 := by
  induction l with
  | nil => intro i g b h; simp [List.get?] at h
  | cons hd tl ih =>
      intro i g b h
      cases i with
      | zero =>
          simp only [List.get?] at h
          cases h
          simp [groupCounter, List.set]
          omega
      | succ i =>
          simp only [List.get?] at h
          have := ih i g b h
          simp only [List.set, groupCounter, List.map, List.sum_cons] at this ⊢
          omega

/-- The total group size after the fold grows by exactly one per
processed box: assignment is a total function from boxes to groups. -/
theorem fold_counter (centroids : List Box) :
    ∀ (bs : List Box) (s0 s : KState),
      bs.foldlM (processBox centroids) s0 = .ok s →
      groupCounter s.groups = groupCounter s0.groups + bs.length := by
  intro bs
  induction bs with
  | nil =>
      intro s0 s h
      simp only [List.foldlM_nil] at h
      cases h
      simp
  | cons b rest ih =>
      intro s0 s h
      rw [List.foldlM_cons] at h
      cases hpb : processBox centroids s0 b with
      | error e => rw [hpb] at h; simp at h
      | ok s1 =>
          rw [hpb, ok_bind] at h
          obtain ⟨g, a, hg, -, rfl⟩ := processBox_ok_elim hpb
          have h1 := ih _ _ h
          rw [h1]
          simp only [groupCounter_set s0.groups _ g b hg, List.length_cons]
          omega

/-- The fold can only fail with the index error. -/
theorem fold_error_eq (centroids : List Box) :
    ∀ (bs : List Box) (s0 : KState) (e : KError),
      bs.foldlM (processBox centroids) s0 = .error e →
      e = KError.indexError := by
  intro bs
  induction bs with
  | nil =>
      intro s0 e h
      simp only [List.foldlM_nil] at h
      cases h
  | cons b rest ih =>
      intro s0 e h
      rw [List.foldlM_cons] at h
      cases hpb : processBox centroids s0 b with
      | error e1 =>
          rw [hpb, err_bind] at h
          cases h
          exact processBox_error_eq hpb
      | ok s1 =>
          rw [hpb, ok_bind] at h
          exact ih _ _ h

/-- The fresh accumulators carry zero total group size. -/
theorem groupCounter_init (n : Nat) : groupCounter (initState n).groups = 0 := by
  simp [groupCounter, initState, List.map_replicate, List.sum_replicate]

/-- With at least one group and at most as many centroids as groups,
every `processBox` succeeds, and group/anchor list lengths persist. -/
theorem fold_ok_of_lengths (centroids : List Box) (n : Nat)
    (hk : 1 ≤ n) (hc : centroids.length ≤ n) :
    ∀ (bs : List Box) (s0 : KState),
      s0.groups.length = n → s0.anchors.length = n →
      ∃ s, bs.foldlM (processBox centroids) s0 = .ok s ∧
        s.groups.length = n ∧ s.anchors.length = n := by
  intro bs
  induction bs with
  | nil =>
      intro s0 hgl hal
      exact ⟨s0, rfl, hgl, hal⟩
  | cons b rest ih =>
      intro s0 hgl hal
      have hgi : (assign centroids b).2 < n := by
        rcases assign_index centroids b with h | h
        · omega
        · omega
      have hg : ∃ g, s0.groups.get? (assign centroids b).2 = some g :=
        ⟨_, List.get?_eq_get (by omega)⟩
      have ha : ∃ a, s0.anchors.get? (assign centroids b).2 = some a :=
        ⟨_, List.get?_eq_get (by omega)⟩
      obtain ⟨g, hg⟩ := hg
      obtain ⟨a, ha⟩ := ha
      have hpb : processBox centroids s0 b
          = .ok ⟨s0.groups.set (assign centroids b).2 (g ++ [b]),
              s0.anchors.set (assign centroids b).2
                ⟨a.x, a.y, a.w + b.w, a.h + b.h⟩,
              s0.loss + (assign centroids b).1⟩ := by
        simp only [processBox]
        rw [hg, ha]
      obtain ⟨s, hs, hs1, hs2⟩ := ih
        ⟨s0.groups.set (assign centroids b).2 (g ++ [b]),
         s0.anchors.set (assign centroids b).2 ⟨a.x, a.y, a.w + b.w, a.h + b.h⟩,
         s0.loss + (assign centroids b).1⟩
        (by simp [List.length_set, hgl]) (by simp [List.length_set, hal])
      refine ⟨s, ?_, hs1, hs2⟩
      rw [List.foldlM_cons, hpb, ok_bind]
      exact hs

/-! ## C3: the groups partition the boxes -/

/-- C3: after one clustering step with `K ≥ 1` centroids, every box is
placed in exactly one group: the fold succeeds and the sum of the group
sizes over the `K` groups — the average-IoU divisor — equals the number
of input boxes. -/
theorem spec_C3 (n_anchors : Nat) (boxes centroids : List Box)
    (hk : 1 ≤ n_anchors) (hc : centroids.length = n_anchors) :
    ∃ s, boxes.foldlM (processBox centroids) (initState n_anchors) = .ok s ∧
      s.groups.length = n_anchors ∧
      groupCounter s.groups = boxes.length := by
  obtain ⟨s, hs, hs1, -⟩ := fold_ok_of_lengths centroids n_anchors hk
    (le_of_eq hc) boxes (initState n_anchors)
    (by simp [initState]) (by simp [initState])
  refine ⟨s, hs, hs1, ?_⟩
  have := fold_counter centroids boxes _ _ hs
  rw [this, groupCounter_init]
  omega

/-- Witness for C3: one centroid, two boxes; the two group sizes sum
to 2. -/
theorem spec_C3_witness :
    ∃ s, ([⟨0, 0, 1, 1⟩, ⟨0, 0, 2, 2⟩] : List Box).foldlM
        (processBox [⟨0, 0, 1, 1⟩]) (initState 1) = .ok s ∧
      s.groups.length = 1 ∧ groupCounter s.groups = 2 :=
  spec_C3 1 [⟨0, 0, 1, 1⟩, ⟨0, 0, 2, 2⟩] [⟨0, 0, 1, 1⟩] (by omega) rfl

/-! ## C4: the avg-IoU divisor is N; ZeroDivisionError iff no boxes -/

/-- C4: `run_k_mean` fails with the division-by-zero error exactly when
the box list is empty; on a successful fold over a non-empty box list it
returns the summed member-vs-final-anchor IoU divided by the number `N`
of input boxes. -/
theorem spec_C4 (n_anchors : Nat) (boxes centroids : List Box) :
    (run_k_mean n_anchors boxes centroids = .error .zeroDivisionError ↔
      boxes = []) ∧
    (∀ s, boxes.foldlM (processBox centroids) (initState n_anchors) = .ok s →
      boxes ≠ [] →
      run_k_mean n_anchors boxes centroids
        = .ok (updateAnchors s.groups s.anchors,
            iouSum s.groups (updateAnchors s.groups s.anchors)
              / (boxes.length : ℚ),
            s.loss)) := by
  have hok : ∀ s, boxes.foldlM (processBox centroids) (initState n_anchors)
      = .ok s → groupCounter s.groups = boxes.length := by
    intro s hs
    have := fold_counter centroids boxes _ _ hs
    rw [this, groupCounter_init]
    omega
  constructor
  · constructor
    · intro h
      by_contra hne
      cases hf : boxes.foldlM (processBox centroids) (initState n_anchors) with
      | error e =>
          have he := fold_error_eq centroids boxes _ _ hf
          rw [run_k_mean, hf, err_bind] at h
          cases h
          cases he
      | ok s =>
          have hc := hok s hf
          have hcn : groupCounter s.groups ≠ 0 := by
            rw [hc]
            intro h0
            exact hne (List.eq_nil_of_length_eq_zero h0)
          rw [run_k_mean, hf, ok_bind] at h
          simp only [hcn, if_false, reduceIte] at h
          cases h
    · intro h
      subst h
      simp [run_k_mean, List.foldlM_nil, groupCounter_init]
  · intro s hf hne
    have hc := hok s hf
    have hcn : groupCounter s.groups ≠ 0 := by
      rw [hc]
      intro h0
      exact hne (List.eq_nil_of_length_eq_zero h0)
    rw [run_k_mean, hf, ok_bind]
    simp only [hcn, if_false, reduceIte]
    rw [hc]

/-- Witness for C4: the empty box list makes the call fail with the
division-by-zero error. -/
theorem spec_C4_witness :
    run_k_mean 1 ([] : List Box) [] = .error .zeroDivisionError :=
  (spec_C4 1 [] []).1.mpr rfl

/-! ## The accumulator invariant -/

/-- Reading any position of a `replicate` yields the replicated value. -/
theorem get?_replicate_elim {α : Type} {a : α} {n i : Nat} {x : α}
    (h : (List.replicate n a).get? i = some x) : x = a := by
  obtain ⟨hlt, hget⟩ := List.get?_eq_some.mp h
  rw [List.get_replicate] at hget
  exact hget.symm

/-- The invariant holds for the fresh accumulators. -/
theorem inv_init (n : Nat) (allowed : List Box) : Inv n allowed (initState n) := by
  refine ⟨by simp [initState], by simp [initState], ?_, ?_⟩
  · intro i g hg
    have hgnil := get?_replicate_elim hg
    subst hgnil
    obtain ⟨hlt, -⟩ := List.get?_eq_some.mp hg
    simp only [initState] at hlt ⊢
    rw [List.length_replicate] at hlt
    rw [List.get?_eq_get (by rw [List.length_replicate]; exact hlt)]
    rw [List.get_replicate]
    simp
  · intro i g hg b hb
    have hgnil := get?_replicate_elim hg
    subst hgnil
    cases hb

/-- One `processBox` step preserves the invariant. -/
theorem inv_processBox {n : Nat} {centroids allowed : List Box}
    {s s' : KState} {b : Box} (hInv : Inv n allowed s) (hb : b ∈ allowed)
    (h : processBox centroids s b = .ok s') : Inv n allowed s' := by
  obtain ⟨g, a, hg, ha, rfl⟩ := processBox_ok_elim h
  have haval : a = ⟨0, 0, (g.map Box.w).sum, (g.map Box.h).sum⟩ := by
    have := hInv.anch _ g hg
    rw [ha] at this
    exact Option.some.inj this
  refine ⟨by simp [List.length_set, hInv.glen],
          by simp [List.length_set, hInv.alen], ?_, ?_⟩
  · intro i g' hg'
    by_cases hi : (assign centroids b).2 = i
    · subst hi
      rw [List.get?_set_eq, hg] at hg'
      simp at hg'
      subst hg'
      rw [List.get?_set_eq, ha]
      subst haval
      simp [List.map_append, List.sum_append]
    · rw [List.get?_set_ne _ _ hi] at hg'
      rw [List.get?_set_ne _ _ hi]
      exact hInv.anch i g' hg'
  · intro i g' hg' b' hb'
    by_cases hi : (assign centroids b).2 = i
    · subst hi
      rw [List.get?_set_eq, hg] at hg'
      simp at hg'
      subst hg'
      rcases List.mem_append.mp hb' with hmem | hmem
      · exact hInv.mem _ g hg b' hmem
      · rw [List.mem_singleton.mp hmem]
        exact hb
    · rw [List.get?_set_ne _ _ hi] at hg'
      exact hInv.mem i g' hg' b' hb'

/-- The fold preserves the invariant. -/
theorem inv_fold {n : Nat} (centroids allowed : List Box) :
    ∀ (bs : List Box) (s0 s : KState), Inv n allowed s0 →
      (∀ b ∈ bs, b ∈ allowed) →
      bs.foldlM (processBox centroids) s0 = .ok s → Inv n allowed s := by
  intro bs
  induction bs with
  | nil =>
      intro s0 s hInv _ h
      simp only [List.foldlM_nil] at h
      cases h
      exact hInv
  | cons b rest ih =>
      intro s0 s hInv hmem h
      rw [List.foldlM_cons] at h
      cases hpb : processBox centroids s0 b with
      | error e => rw [hpb] at h; simp at h
      | ok s1 =>
          rw [hpb, ok_bind] at h
          have hInv1 := inv_processBox hInv (hmem b (by simp)) hpb
          exact ih s1 s hInv1 (fun x hx => hmem x (by simp [hx])) h

/-- Reading a position of `updateAnchors` applies the per-group mean (or
keeps the accumulator for an empty group). -/
theorem updateAnchors_get? {groups : List (List Box)} {anchors : List Box}
    {i : Nat} {g : List Box} {a : Box}
    (hg : groups.get? i = some g) (ha : anchors.get? i = some a) :
    (updateAnchors groups anchors).get? i
      = some (if g.length = 0 then a
          else ⟨a.x, a.y, a.w / (g.length : ℚ), a.h / (g.length : ℚ)⟩) := by
  rw [updateAnchors, List.get?_zipWith, hg, ha]

/-- Eliminating a successful `run_k_mean`: extract the fold state and the
exact shape of the returned triple. -/
theorem run_k_mean_ok_elim {n_anchors : Nat} {boxes centroids : List Box}
    {A : List Box} {avg L : ℚ}
    (h : run_k_mean n_anchors boxes centroids = .ok (A, avg, L)) :
    ∃ s, boxes.foldlM (processBox centroids) (initState n_anchors) = .ok s ∧
      A = updateAnchors s.groups s.anchors ∧
      groupCounter s.groups ≠ 0 ∧
      avg = iouSum s.groups A / (groupCounter s.groups : ℚ) ∧
      L = s.loss := by
  rw [run_k_mean] at h
  cases hf : boxes.foldlM (processBox centroids) (initState n_anchors) with
  | error e => rw [hf, err_bind] at h; cases h
  | ok s =>
      rw [hf, ok_bind] at h
      by_cases hcn : groupCounter s.groups = 0
      · simp only [hcn, reduceIte] at h
        cases h
      · simp only [hcn, if_false, reduceIte] at h
        injection h with h1
        simp only [Prod.mk.injEq] at h1
        obtain ⟨hA, havg, hL⟩ := h1
        subst hA
        exact ⟨s, rfl, rfl, hcn, havg.symm, hL.symm⟩

/-! ## C5: an empty group's anchor -/

/-- C5 (amended): after the fold of one clustering step, a group that
ended up empty leaves its anchor at the fresh zero initialisation
`Box(0, 0, 0, 0)` — both in the accumulator and in the final anchor list
(the division is skipped) — not at the input centroid's value. -/
theorem spec_C5 (n_anchors : Nat) (boxes centroids : List Box)
    (s : KState) (i : Nat)
    (hf : boxes.foldlM (processBox centroids) (initState n_anchors) = .ok s)
    (hi : s.groups.get? i = some []) :
    s.anchors.get? i = some ⟨0, 0, 0, 0⟩ ∧
    (updateAnchors s.groups s.anchors).get? i = some ⟨0, 0, 0, 0⟩ := by
  have hInv := inv_fold centroids boxes boxes (initState n_anchors) s
    (inv_init n_anchors boxes) (fun _ hx => hx) hf
  have ha := hInv.anch i [] hi
  simp only [List.map_nil, List.sum_nil] at ha
  refine ⟨ha, ?_⟩
  rw [updateAnchors_get? hi ha]
  simp

/-! ## C10: zero-sized centroids away from index 0 stay zero-sized -/

/-- The IoU against a zero-width box is 0 (for a box of non-negative
width). -/
theorem box_iou_zero_w (b c : Box) (hb : 0 ≤ b.w) (hcw : c.w = 0) :
    box_iou b c = 0 := by
  simp only [box_iou]
  rw [hcw]
  rw [min_eq_right hb]
  simp

/-- A box of non-negative width is never assigned to a zero-width
centroid at a non-zero index: its distance there is exactly 1, which
never beats the running minimum. -/
theorem assign_ne_zero_centroid (centroids : List Box) (b : Box) (i : Nat)
    (c : Box) (hb : 0 ≤ b.w) (hc : centroids.get? i = some c)
    (hcw : c.w = 0) (hi : i ≠ 0) :
    (assign centroids b).2 ≠ i := by
  intro hgi
  obtain ⟨-, -, h3⟩ := assignAux_spec b centroids 0 0 1
  rcases h3 with ⟨-, hg⟩ | ⟨hlt, j, c', hj, hgi2, hval, -⟩
  · rw [assign] at hgi
    rw [hg] at hgi
    exact hi hgi.symm
  · rw [assign] at hgi
    rw [hgi2] at hgi
    simp only [Nat.zero_add] at hgi
    subst hgi
    rw [hc] at hj
    have hcc := Option.some.inj hj
    subst hcc
    rw [box_iou_zero_w b c hb hcw] at hval
    simp at hval
    rw [hval] at hlt
    exact lt_irrefl 1 hlt

/-- The fold never touches group or anchor `i` when centroid `i` is
zero-width and sits at a non-zero index. -/
theorem fold_keeps_zero_group (centroids : List Box) (i : Nat) (c : Box)
    (hc : centroids.get? i = some c) (hcw : c.w = 0) (hi : i ≠ 0) :
    ∀ (bs : List Box) (s0 s : KState), (∀ b ∈ bs, 0 ≤ b.w) →
      bs.foldlM (processBox centroids) s0 = .ok s →
      s.groups.get? i = s0.groups.get? i ∧
      s.anchors.get? i = s0.anchors.get? i := by
  intro bs
  induction bs with
  | nil =>
      intro s0 s _ h
      simp only [List.foldlM_nil] at h
      cases h
      exact ⟨rfl, rfl⟩
  | cons b rest ih =>
      intro s0 s hw h
      rw [List.foldlM_cons] at h
      cases hpb : processBox centroids s0 b with
      | error e => rw [hpb] at h; simp at h
      | ok s1 =>
          rw [hpb, ok_bind] at h
          obtain ⟨g, a, hg, ha, rfl⟩ := processBox_ok_elim hpb
          have hne := assign_ne_zero_centroid centroids b i c
            (hw b (by simp)) hc hcw hi
          obtain ⟨h1, h2⟩ := ih _ s (fun x hx => hw x (by simp [hx])) h
          rw [h1, h2]
          constructor
          · exact List.get?_set_ne _ _ hne
          · exact List.get?_set_ne _ _ hne

/-- C10 (amended): a zero-sized centroid at a non-zero valid index, with
all boxes of positive area, has IoU 0 and distance exactly 1 to every
box; its group stays empty through the step and its output anchor is
again the zero-sized `Box(0, 0, 0, 0)` — so once a zero-sized anchor
appears away from index 0 it persists through every later iteration. -/
theorem spec_C10 (n_anchors : Nat) (boxes centroids : List Box)
    (i : Nat) (c : Box)
    (hv : ∀ b ∈ boxes, validBox b)
    (hc : centroids.get? i = some c) (hcw : c.w = 0) (_hch : c.h = 0)
    (hi : i ≠ 0) (hin : i < n_anchors) :
    (∀ b ∈ boxes, box_iou b c = 0 ∧ 1 - box_iou b c = 1) ∧
    (∀ s, boxes.foldlM (processBox centroids) (initState n_anchors) = .ok s →
      s.groups.get? i = some []) ∧
    (∀ A avg L, run_k_mean n_anchors boxes centroids = .ok (A, avg, L) →
      A.get? i = some ⟨0, 0, 0, 0⟩) := by
  have hbw : ∀ b ∈ boxes, 0 ≤ b.w := fun b hb => (hv b hb).1
  have hzero : ∀ s0 s : KState,
      boxes.foldlM (processBox centroids) s0 = .ok s →
      s.groups.get? i = s0.groups.get? i ∧
      s.anchors.get? i = s0.anchors.get? i :=
    fun s0 s h => fold_keeps_zero_group centroids i c hc hcw hi boxes s0 s hbw h
  have hinit_g : (initState n_anchors).groups.get? i = some [] := by
    simp only [initState]
    rw [List.get?_eq_get (by rw [List.length_replicate]; exact hin)]
    rw [List.get_replicate]
  have hinit_a : (initState n_anchors).anchors.get? i = some ⟨0, 0, 0, 0⟩ := by
    simp only [initState]
    rw [List.get?_eq_get (by rw [List.length_replicate]; exact hin)]
    rw [List.get_replicate]
  refine ⟨?_, ?_, ?_⟩
  · intro b hb
    have h0 := box_iou_zero_w b c (hbw b hb) hcw
    rw [h0]
    norm_num
  · intro s hs
    rw [(hzero _ _ hs).1, hinit_g]
  · intro A avg L hrun
    obtain ⟨s, hs, hA, -, -, -⟩ := run_k_mean_ok_elim hrun
    obtain ⟨h1, h2⟩ := hzero _ _ hs
    rw [hA]
    rw [updateAnchors_get? (by rw [h1, hinit_g]) (by rw [h2, hinit_a])]
    simp

/-! ## The K = 1 clustering step -/

/-- With a single centroid the scan returns group 0 and the centroid's
distance capped at the initial bound 1. -/
theorem assign_single (c b : Box) :
    assign [c] b = (min (1 - box_iou b c) 1, 0) := by
  simp only [assign, assignAux]
  by_cases hd : 1 - box_iou b c < 1
  · rw [if_pos hd, min_eq_left (le_of_lt hd)]
  · rw [if_neg hd, min_eq_right (le_of_not_lt hd)]

/-- Folding the loop body over an accumulator in `ℚ` sums the mapped
values. -/
theorem foldl_add_map {α : Type} (f : α → ℚ) :
    ∀ (l : List α) (init : ℚ),
      l.foldl (fun acc x => acc + f x) init = init + (l.map f).sum := by
  intro l
  induction l with
  | nil => intro init; simp
  | cons x xs ih =>
      intro init
      rw [List.foldl_cons, ih]
      simp [add_assoc]

/-- With a single centroid every box lands in group 0: the fold just
accumulates the whole list, its width/height sums and its capped
distances. -/
theorem fold_k1 (c : Box) :
    ∀ (bs g : List Box) (sw sh L : ℚ),
      bs.foldlM (processBox [c]) ⟨[g], [⟨0, 0, sw, sh⟩], L⟩
        = .ok ⟨[g ++ bs],
            [⟨0, 0, sw + (bs.map Box.w).sum, sh + (bs.map Box.h).sum⟩],
            L + (bs.map (fun b => min (1 - box_iou b c) 1)).sum⟩ := by
  intro bs
  induction bs with
  | nil => intro g sw sh L; simp
  | cons b rest ih =>
      intro g sw sh L
      rw [List.foldlM_cons]
      have hpb : processBox [c] ⟨[g], [⟨0, 0, sw, sh⟩], L⟩ b
          = .ok ⟨[g ++ [b]], [⟨0, 0, sw + b.w, sh + b.h⟩],
              L + min (1 - box_iou b c) 1⟩ := by
        simp only [processBox, assign_single]
        simp [List.set, List.get?]
      rw [hpb, ok_bind, ih]
      simp [List.append_assoc, List.singleton_append, add_assoc]

/-- A `K = 1` clustering step on a non-empty box list returns the mean
box as the single anchor — independently of the centroid — together
with the mean IoU against that anchor and the summed capped distance to
the centroid. -/
theorem run_k_mean_k1 (boxes : List Box) (c : Box) (hne : boxes ≠ []) :
    run_k_mean 1 boxes [c]
      = .ok ([meanBox boxes],
          (boxes.map (fun b => box_iou b (meanBox boxes))).sum
            / (boxes.length : ℚ),
          (boxes.map (fun b => min (1 - box_iou b c) 1)).sum) := by
  have hlen : boxes.length ≠ 0 := by
    intro h
    exact hne (List.eq_nil_of_length_eq_zero h)
  have hfold := fold_k1 c boxes [] 0 0 0
  simp only [List.nil_append, zero_add] at hfold
  have hinit : initState 1
      = (⟨[[]], [⟨0, 0, 0, 0⟩], 0⟩ : KState) := by
    simp [initState, List.replicate]
  rw [run_k_mean, hinit, hfold, ok_bind]
  have hcnt : groupCounter [boxes] = boxes.length := by
    simp [groupCounter]
  have hupd : updateAnchors [boxes]
        [⟨0, 0, (boxes.map Box.w).sum, (boxes.map Box.h).sum⟩]
      = [meanBox boxes] := by
    simp only [updateAnchors, List.zipWith, meanBox]
    rw [if_neg hlen]
  have hiou : iouSum [boxes] [meanBox boxes]
      = (boxes.map (fun b => box_iou b (meanBox boxes))).sum := by
    simp only [iouSum, List.zip, List.zipWith, List.foldl]
    rw [foldl_add_map (fun b => box_iou b (meanBox boxes)) boxes 0]
    simp
  simp only [hcnt, hlen, if_false, reduceIte, hupd, hiou]

/-- Unfolding one round of the convergence loop. -/
theorem kMeanLoop_succ (fuel k : Nat) (gt_boxes : List Box) (conv : ℚ)
    (anchors : List Box) (loss : ℚ) :
    kMeanLoop (fuel + 1) k gt_boxes conv anchors loss
      = (run_k_mean k gt_boxes anchors) >>= (fun r =>
          if |loss - r.2.2| < conv then .ok (some (r.1, r.2.1))
          else kMeanLoop fuel k gt_boxes conv r.1 r.2.2) := rfl

/-! ## C6: K = 1 convergence -/

/-- C6 (amended): for `K = 1` on any non-empty valid box set,
`k_mean_cluster` converges within the first two post-seed checks — not
necessarily at the first, since the seed loss is measured against the
random initial centroid — and returns the single anchor equal to the
mean width/height of all input boxes. -/
theorem spec_C6 (boxes : List Box) (i0 : Nat) (conv : ℚ) (fuel : Nat)
    (hne : boxes ≠ []) (_hv : ∀ b ∈ boxes, validBox b) (hconv : 0 < conv)
    (hfuel : 2 ≤ fuel) :
    ∃ avg, k_mean_cluster fuel 1 boxes [i0] conv
      = .ok (some ([meanBox boxes], avg)) := by
  obtain ⟨f, rfl⟩ : ∃ f, fuel = f + 1 + 1 := ⟨fuel - 2, by omega⟩
  have hseed := run_k_mean_k1 boxes (boxes.getD i0 ⟨0, 0, 0, 0⟩) hne
  have hmean := run_k_mean_k1 boxes (meanBox boxes) hne
  refine ⟨(boxes.map (fun b => box_iou b (meanBox boxes))).sum
      / (boxes.length : ℚ), ?_⟩
  rw [k_mean_cluster]
  simp only [List.map_cons, List.map_nil]
  rw [hseed, ok_bind]
  dsimp only
  rw [kMeanLoop_succ, hmean, ok_bind]
  dsimp only
  by_cases h1 : |(boxes.map (fun b =>
        min (1 - box_iou b (boxes.getD i0 ⟨0, 0, 0, 0⟩)) 1)).sum
      - (boxes.map (fun b => min (1 - box_iou b (meanBox boxes)) 1)).sum| < conv
  · rw [if_pos h1]
  · rw [if_neg h1]
    rw [kMeanLoop_succ, hmean, ok_bind]
    dsimp only
    rw [if_pos (by simpa using hconv)]

/-! ## C2: the convergence driver -/

/-- C2: the driver seeds the loss with one unchecked clustering step,
then repeatedly reruns the step on the anchors just produced; if `m` is
the first loop round at which consecutive losses differ by less than the
threshold (and fuel suffices), it stops there and returns exactly the
anchors and avg-IoU of the most recent step, `m + 1`. -/
theorem spec_C2 (k fuel m : Nat) (gt_boxes : List Box) (idxs : List Nat)
    (conv : ℚ) (A : Nat → List Box) (I L : Nat → ℚ)
    (h0 : run_k_mean k gt_boxes
        (idxs.map (fun i => gt_boxes.getD i ⟨0, 0, 0, 0⟩))
      = .ok (A 0, I 0, L 0))
    (hstep : ∀ n, run_k_mean k gt_boxes (A n)
      = .ok (A (n + 1), I (n + 1), L (n + 1)))
    (hm : |L m - L (m + 1)| < conv)
    (hmin : ∀ j, j < m → ¬ |L j - L (j + 1)| < conv)
    (hfuel : m < fuel) :
    k_mean_cluster fuel k gt_boxes idxs conv
      = .ok (some (A (m + 1), I (m + 1))) := by
  have hloop : ∀ (m' n fuel' : Nat), m' < fuel' →
      (∀ j, j < m' → ¬ |L (n + j) - L (n + j + 1)| < conv) →
      |L (n + m') - L (n + m' + 1)| < conv →
      kMeanLoop fuel' k gt_boxes conv (A n) (L n)
        = .ok (some (A (n + m' + 1), I (n + m' + 1))) := by
    intro m'
    induction m' with
    | zero =>
        intro n fuel' hfuel' hmin' hm'
        obtain ⟨f, rfl⟩ : ∃ f, fuel' = f + 1 := ⟨fuel' - 1, by omega⟩
        rw [kMeanLoop_succ, hstep n, ok_bind]
        dsimp only
        simp only [Nat.add_zero] at hm' ⊢
        rw [if_pos hm']
    | succ m' ih =>
        intro n fuel' hfuel' hmin' hm'
        obtain ⟨f, rfl⟩ : ∃ f, fuel' = f + 1 := ⟨fuel' - 1, by omega⟩
        rw [kMeanLoop_succ, hstep n, ok_bind]
        dsimp only
        have h0' : ¬ |L n - L (n + 1)| < conv := by
          have := hmin' 0 (by omega)
          simpa using this
        rw [if_neg h0']
        have e1 : n + (m' + 1) = n + 1 + m' := by omega
        rw [e1] at hm'
        have e2 : n + (m' + 1) + 1 = n + 1 + m' + 1 := by omega
        rw [e2]
        exact ih (n + 1) f (by omega)
          (fun j hj => by
            have := hmin' (j + 1) (by omega)
            have e : n + (j + 1) = n + 1 + j := by omega
            rwa [e] at this)
          hm'
  rw [k_mean_cluster]
  rw [h0, ok_bind]
  dsimp only
  have := hloop m 0 fuel hfuel (by simpa using hmin) (by simpa using hm)
  simpa using this

/-! ## Bounds on the returned average IoU -/

/-- A valid box has strictly positive width and height. -/
theorem validBox_pos {b : Box} (h : validBox b) : 0 < b.w ∧ 0 < b.h := by
  obtain ⟨hw, hh, hwh⟩ := h
  constructor
  · have hne : b.w ≠ 0 := by
      intro h0
      rw [h0] at hwh
      simp at hwh
    exact lt_of_le_of_ne hw (Ne.symm hne)
  · have hne : b.h ≠ 0 := by
      intro h0
      rw [h0] at hwh
      simp at hwh
    exact lt_of_le_of_ne hh (Ne.symm hne)

/-- The nested IoU accumulation equals the sum of per-group IoU sums. -/
theorem foldl_iou_eq :
    ∀ (l : List (Box × List Box)) (init : ℚ),
      l.foldl (fun acc p =>
          p.2.foldl (fun acc2 b => acc2 + box_iou b p.1) acc) init
        = init + (l.map
            (fun p => (p.2.map (fun b => box_iou b p.1)).sum)).sum := by
  intro l
  induction l with
  | nil => intro init; simp
  | cons p ps ih =>
      intro init
      rw [List.foldl_cons, ih, foldl_add_map]
      simp [add_assoc]

/-- `iouSum` as a sum of mapped sums. -/
theorem iouSum_eq (groups : List (List Box)) (anchors : List Box) :
    iouSum groups anchors
      = ((anchors.zip groups).map
          (fun p => (p.2.map (fun b => box_iou b p.1)).sum)).sum := by
  rw [iouSum, foldl_iou_eq]
  simp

/-- Summing the group lengths through the zip equals summing them
directly, when the lists have equal length. -/
theorem map_len_zip_sum :
    ∀ (anchors : List Box) (groups : List (List Box)),
      anchors.length = groups.length →
      ((anchors.zip groups).map (fun p => (p.2.length : ℚ))).sum
        = ((groups.map List.length).sum : ℚ) := by
  intro anchors
  induction anchors with
  | nil =>
      intro groups h
      cases groups with
      | nil => simp
      | cons g gs => simp at h
  | cons a as ih =>
      intro groups h
      cases groups with
      | nil => simp at h
      | cons g gs =>
          simp only [List.zip_cons_cons, List.map_cons, List.sum_cons]
          rw [ih gs (by simpa using h)]
          push_cast
          ring

/-- If every member-vs-anchor IoU lies in `[0, 1]`, the IoU
accumulation lies between 0 and the total group size. -/
theorem iouSum_bounds (groups : List (List Box)) (anchors : List Box)
    (h : ∀ p ∈ anchors.zip groups, ∀ b ∈ p.2,
      0 ≤ box_iou b p.1 ∧ box_iou b p.1 ≤ 1)
    (hlen : anchors.length = groups.length) :
    0 ≤ iouSum groups anchors ∧
    iouSum groups anchors ≤ ((groups.map List.length).sum : ℚ) := by
  rw [iouSum_eq]
  constructor
  · apply List.sum_nonneg
    intro x hx
    obtain ⟨p, hp, rfl⟩ := List.mem_map.mp hx
    apply List.sum_nonneg
    intro y hy
    obtain ⟨b, hb, rfl⟩ := List.mem_map.mp hy
    exact (h p hp b hb).1
  · have h1 : ((anchors.zip groups).map
          (fun p => (p.2.map (fun b => box_iou b p.1)).sum)).sum
        ≤ ((anchors.zip groups).map (fun p => (p.2.length : ℚ))).sum := by
      apply List.sum_le_sum
      intro p hp
      calc (p.2.map (fun b => box_iou b p.1)).sum
          ≤ (p.2.map (fun _ => (1 : ℚ))).sum :=
            List.sum_le_sum (fun b hb => (h p hp b hb).2)
        _ = (p.2.length : ℚ) := by
            rw [List.map_const']
            rw [List.sum_replicate]
            simp
    rw [map_len_zip_sum anchors groups hlen] at h1
    exact h1

/-- A position of the zip of two lists reads both lists at that
position. -/
theorem zip_get?_elim {α β : Type} {l1 : List α} {l2 : List β} {i : Nat}
    {p : α × β} (h : (l1.zip l2).get? i = some p) :
    l1.get? i = some p.1 ∧ l2.get? i = some p.2 := by
  rw [show l1.zip l2 = List.zipWith Prod.mk l1 l2 from rfl] at h
  rw [List.get?_zipWith] at h
  cases h1 : l1.get? i with
  | none => rw [h1] at h; cases h
  | some a =>
      cases h2 : l2.get? i with
      | none => rw [h1, h2] at h; cases h
      | some b =>
          rw [h1, h2] at h
          have h3 : some (a, b) = some p := h
          have h4 := Option.some.inj h3
          rw [← h4]
          exact ⟨rfl, rfl⟩

/-- Any successful `run_k_mean` over valid boxes returns exactly
`n_anchors` anchors and an average IoU in `[0, 1]`. -/
theorem run_k_mean_props {n_anchors : Nat} {boxes centroids : List Box}
    {A : List Box} {avg L : ℚ}
    (hv : ∀ b ∈ boxes, validBox b)
    (h : run_k_mean n_anchors boxes centroids = .ok (A, avg, L)) :
    A.length = n_anchors ∧ 0 ≤ avg ∧ avg ≤ 1 := by
  obtain ⟨s, hf, hA, hcn, havg, -⟩ := run_k_mean_ok_elim h
  have hInv := inv_fold centroids boxes boxes (initState n_anchors) s
    (inv_init n_anchors boxes) (fun _ hx => hx) hf
  have hAlen : A.length = n_anchors := by
    rw [hA, updateAnchors, List.length_zipWith, hInv.glen, hInv.alen, min_self]
  have hbnd : ∀ p ∈ A.zip s.groups, ∀ b ∈ p.2,
      0 ≤ box_iou b p.1 ∧ box_iou b p.1 ≤ 1 := by
    intro p hp b hb
    obtain ⟨i, hpi⟩ := List.mem_iff_get?.mp hp
    obtain ⟨hai, hgi⟩ := zip_get?_elim hpi
    have hanch := hInv.anch i p.2 hgi
    have hbv : validBox b := hv b (hInv.mem i p.2 hgi b hb)
    have hlen0 : p.2.length ≠ 0 := by
      intro h0
      rw [List.length_eq_zero] at h0
      rw [h0] at hb
      cases hb
    have hupd := updateAnchors_get? hgi hanch
    rw [hA] at hai
    rw [hai] at hupd
    have hp1 := Option.some.inj hupd
    rw [if_neg hlen0] at hp1
    have hw_nonneg : ∀ x ∈ p.2, 0 ≤ Box.w x := by
      intro x hx
      exact (hv x (hInv.mem i p.2 hgi x hx)).1
    have hh_nonneg : ∀ x ∈ p.2, 0 ≤ Box.h x := by
      intro x hx
      exact (hv x (hInv.mem i p.2 hgi x hx)).2.1
    have hsw : 0 ≤ (p.2.map Box.w).sum := by
      apply List.sum_nonneg
      intro y hy
      obtain ⟨x, hx, rfl⟩ := List.mem_map.mp hy
      exact hw_nonneg x hx
    have hsh : 0 ≤ (p.2.map Box.h).sum := by
      apply List.sum_nonneg
      intro y hy
      obtain ⟨x, hx, rfl⟩ := List.mem_map.mp hy
      exact hh_nonneg x hx
    have hcast : (0 : ℚ) ≤ (p.2.length : ℚ) := by positivity
    have hpw : 0 ≤ p.1.w := by
      rw [hp1]
      exact div_nonneg hsw hcast
    have hph : 0 ≤ p.1.h := by
      rw [hp1]
      exact div_nonneg hsh hcast
    exact box_iou_bounds b p.1 hbv.1 hbv.2.1 hpw hph (Or.inl hbv.2.2)
  have hzlen : A.length = s.groups.length := by
    rw [hAlen, hInv.glen]
  obtain ⟨hlo, hhi⟩ := iouSum_bounds s.groups A hbnd hzlen
  have hcpos : (0 : ℚ) < (groupCounter s.groups : ℚ) := by
    have := Nat.pos_of_ne_zero hcn
    exact_mod_cast this
  refine ⟨hAlen, ?_, ?_⟩
  · rw [havg]
    exact div_nonneg hlo (le_of_lt hcpos)
  · rw [havg]
    rw [div_le_one hcpos]
    exact hhi

/-- A converged loop result comes from some successful `run_k_mean`. -/
theorem kMeanLoop_ok_some (k : Nat) (gt_boxes : List Box) (conv : ℚ) :
    ∀ (fuel : Nat) (anchors0 : List Box) (loss0 : ℚ)
      (anch : List Box) (avg : ℚ),
      kMeanLoop fuel k gt_boxes conv anchors0 loss0 = .ok (some (anch, avg)) →
      ∃ X L2, run_k_mean k gt_boxes X = .ok (anch, avg, L2) := by
  intro fuel
  induction fuel with
  | zero =>
      intro a0 l0 anch avg h
      simp only [kMeanLoop] at h
      cases h
  | succ fuel ih =>
      intro a0 l0 anch avg h
      rw [kMeanLoop_succ] at h
      cases hr : run_k_mean k gt_boxes a0 with
      | error e => rw [hr, err_bind] at h; cases h
      | ok r =>
          obtain ⟨r1, r2, r3⟩ := r
          rw [hr, ok_bind] at h
          dsimp only at h
          by_cases hc : |l0 - r3| < conv
          · rw [if_pos hc] at h
            injection h with h1
            injection h1 with h2
            injection h2 with h3 h4
            subst h3
            subst h4
            exact ⟨a0, r3, hr⟩
          · rw [if_neg hc] at h
            exact ih r1 r3 anch avg h

/-- A converged `k_mean_cluster` result comes from some successful
`run_k_mean`. -/
theorem k_mean_cluster_ok_elim {fuel k : Nat} {gt_boxes : List Box}
    {idxs : List Nat} {conv : ℚ} {anch : List Box} {avg : ℚ}
    (h : k_mean_cluster fuel k gt_boxes idxs conv = .ok (some (anch, avg))) :
    ∃ X L2, run_k_mean k gt_boxes X = .ok (anch, avg, L2) := by
  rw [k_mean_cluster] at h
  cases hr : run_k_mean k gt_boxes
      (idxs.map (fun i => gt_boxes.getD i ⟨0, 0, 0, 0⟩)) with
  | error e => rw [hr, err_bind] at h; cases h
  | ok r =>
      rw [hr, ok_bind] at h
      exact kMeanLoop_ok_some k gt_boxes conv fuel r.1 r.2.2 anch avg h

/-- C7 (amended): whenever the convergence driver returns at all on a
valid input, it returns exactly `K` anchor boxes and an average IoU in
`[0, 1]`; termination itself is not guaranteed by the uncapped loop. -/
theorem spec_C7 (fuel k : Nat) (boxes : List Box) (idxs : List Nat)
    (conv : ℚ) (anchors : List Box) (avg : ℚ)
    (hv : ∀ b ∈ boxes, validBox b)
    (h : k_mean_cluster fuel k boxes idxs conv = .ok (some (anchors, avg))) :
    anchors.length = k ∧ 0 ≤ avg ∧ avg ≤ 1 := by
  obtain ⟨X, L2, hrun⟩ := k_mean_cluster_ok_elim h
  exact run_k_mean_props hv hrun

/-! ## C8: box_iou stays in [0, 1] -/

/-- C8: for boxes with non-negative width and height (the spec's box
data model) of which at least one has positive area, the origin-centered
IoU lies in `[0, 1]`. -/
theorem spec_C8 (a b : Box) (haw : 0 ≤ a.w) (hah : 0 ≤ a.h)
    (hbw : 0 ≤ b.w) (hbh : 0 ≤ b.h)
    (hpos : 0 < a.w * a.h ∨ 0 < b.w * b.h) :
    0 ≤ box_iou a b ∧ box_iou a b ≤ 1 :=
  box_iou_bounds a b haw hah hbw hbh hpos

/-- Witness for C8 at a concrete pair. -/
theorem spec_C8_witness :
    0 ≤ box_iou ⟨0, 0, 1, 1⟩ ⟨0, 0, 3, 3⟩ ∧
    box_iou ⟨0, 0, 1, 1⟩ ⟨0, 0, 3, 3⟩ ≤ 1 :=
  spec_C8 ⟨0, 0, 1, 1⟩ ⟨0, 0, 3, 3⟩ (by norm_num) (by norm_num)
    (by norm_num) (by norm_num) (by norm_num)

/-! ## Concrete counterexamples and witnesses -/

/-- Counterexample to C5 as stated: with one box `(1, 1)` and centroids
`(1, 1), (2, 2)`, group 1 ends up empty, yet the output anchor at
index 1 is the zero box `Box(0, 0, 0, 0)`, not the input centroid
`(2, 2)`: the anchors start from fresh zeros, not from the centroids. -/
theorem spec_C5_cex :
    ([⟨0, 0, 1, 1⟩] : List Box).foldlM
        (processBox [⟨0, 0, 1, 1⟩, ⟨0, 0, 2, 2⟩]) (initState 2)
      = .ok ⟨[[⟨0, 0, 1, 1⟩], []], [⟨0, 0, 1, 1⟩, ⟨0, 0, 0, 0⟩], 0⟩ ∧
    run_k_mean 2 [⟨0, 0, 1, 1⟩] [⟨0, 0, 1, 1⟩, ⟨0, 0, 2, 2⟩]
      = .ok ([⟨0, 0, 1, 1⟩, ⟨0, 0, 0, 0⟩], 1, 0) ∧
    (⟨0, 0, 0, 0⟩ : Box) ≠ ⟨0, 0, 2, 2⟩ := by
  refine ⟨?_, ?_, ?_⟩
  · norm_num [processBox, assign, assignAux, box_iou, min_def, initState,
      List.foldlM, List.replicate, List.set]
  · norm_num [run_k_mean, processBox, assign, assignAux, box_iou, min_def,
      initState, updateAnchors, iouSum, groupCounter, List.foldlM,
      List.replicate, List.set, List.zipWith, List.zip, List.foldl]
  · intro h
    cases h

/-- Witness for C5 (amended) at the concrete state of `spec_C5_cex`:
the empty group 1 keeps the zero anchor. -/
theorem spec_C5_witness :
    (⟨[[⟨0, 0, 1, 1⟩], []], [⟨0, 0, 1, 1⟩, ⟨0, 0, 0, 0⟩], 0⟩
        : KState).anchors.get? 1 = some ⟨0, 0, 0, 0⟩ ∧
    (updateAnchors [[⟨0, 0, 1, 1⟩], []]
        [⟨0, 0, 1, 1⟩, ⟨0, 0, 0, 0⟩]).get? 1 = some ⟨0, 0, 0, 0⟩ :=
  spec_C5 2 [⟨0, 0, 1, 1⟩] [⟨0, 0, 1, 1⟩, ⟨0, 0, 2, 2⟩]
    ⟨[[⟨0, 0, 1, 1⟩], []], [⟨0, 0, 1, 1⟩, ⟨0, 0, 0, 0⟩], 0⟩ 1
    (by norm_num [processBox, assign, assignAux, box_iou, min_def, initState,
      List.foldlM, List.replicate, List.set])
    rfl

/-- Counterexample to C10 as stated: a zero-sized centroid at index 0
which is the only centroid receives every box through the default
`group_index = 0`, so its group is non-empty and its output anchor is
the box mean `(1, 1)`, not `(0, 0)`. -/
theorem spec_C10_cex :
    ([⟨0, 0, 0, 0⟩] : List Box).get? 0 = some ⟨0, 0, 0, 0⟩ ∧
    validBox ⟨0, 0, 1, 1⟩ ∧
    ([⟨0, 0, 1, 1⟩] : List Box).foldlM
        (processBox [⟨0, 0, 0, 0⟩]) (initState 1)
      = .ok ⟨[[⟨0, 0, 1, 1⟩]], [⟨0, 0, 1, 1⟩], 1⟩ ∧
    run_k_mean 1 [⟨0, 0, 1, 1⟩] [⟨0, 0, 0, 0⟩] = .ok ([⟨0, 0, 1, 1⟩], 1, 1) ∧
    (⟨0, 0, 1, 1⟩ : Box) ≠ ⟨0, 0, 0, 0⟩ := by
  refine ⟨rfl, by norm_num [validBox], ?_, ?_, ?_⟩
  · norm_num [processBox, assign, assignAux, box_iou, min_def, initState,
      List.foldlM, List.replicate, List.set]
  · norm_num [run_k_mean, processBox, assign, assignAux, box_iou, min_def,
      initState, updateAnchors, iouSum, groupCounter, List.foldlM,
      List.replicate, List.set, List.zipWith, List.zip, List.foldl]
  · intro h
    cases h

/-- Witness for C10 (amended) with the zero-sized centroid at index 1 of
two centroids. -/
theorem spec_C10_witness :
    (∀ b ∈ ([⟨0, 0, 1, 1⟩] : List Box),
      box_iou b ⟨0, 0, 0, 0⟩ = 0 ∧ 1 - box_iou b ⟨0, 0, 0, 0⟩ = 1) ∧
    (∀ s, ([⟨0, 0, 1, 1⟩] : List Box).foldlM
        (processBox [⟨0, 0, 1, 1⟩, ⟨0, 0, 0, 0⟩]) (initState 2) = .ok s →
      s.groups.get? 1 = some []) ∧
    (∀ A avg L, run_k_mean 2 [⟨0, 0, 1, 1⟩] [⟨0, 0, 1, 1⟩, ⟨0, 0, 0, 0⟩]
        = .ok (A, avg, L) →
      A.get? 1 = some ⟨0, 0, 0, 0⟩) :=
  spec_C10 2 [⟨0, 0, 1, 1⟩] [⟨0, 0, 1, 1⟩, ⟨0, 0, 0, 0⟩] 1 ⟨0, 0, 0, 0⟩
    (by
      intro b hb
      rw [List.mem_singleton] at hb
      subst hb
      norm_num [validBox])
    rfl rfl rfl (by omega) (by omega)

/-- The seed step of the C6 counterexample: centroid `(1, 1)`. -/
theorem c6_run_seed :
    run_k_mean 1 [⟨0, 0, 1, 1⟩, ⟨0, 0, 3, 3⟩] [⟨0, 0, 1, 1⟩]
      = .ok ([⟨0, 0, 2, 2⟩], 25/72, 8/9) := by
  norm_num [run_k_mean, processBox, assign, assignAux, box_iou, min_def,
    initState, updateAnchors, iouSum, groupCounter, List.foldlM,
    List.replicate, List.set, List.zipWith, List.zip, List.foldl,
    -List.length_eq_zero]

/-- The post-seed step of the C6 counterexample: centroid `(2, 2)`, the
mean; the loss changes from 8/9 to 47/36. -/
theorem c6_run_mean :
    run_k_mean 1 [⟨0, 0, 1, 1⟩, ⟨0, 0, 3, 3⟩] [⟨0, 0, 2, 2⟩]
      = .ok ([⟨0, 0, 2, 2⟩], 25/72, 47/36) := by
  norm_num [run_k_mean, processBox, assign, assignAux, box_iou, min_def,
    initState, updateAnchors, iouSum, groupCounter, List.foldlM,
    List.replicate, List.set, List.zipWith, List.zip, List.foldl,
    -List.length_eq_zero]

/-- Counterexample to C6 as stated: for `K = 1` on the positive-area
boxes `(1, 1), (3, 3)` with threshold `1/100000`, the first post-seed
convergence check compares the seed loss 8/9 (vs the sampled centroid)
with 47/36 (vs the mean) and fails: with fuel for exactly one loop
round the driver has not converged, so convergence does not happen at
the first post-seed check. -/
theorem spec_C6_cex :
    k_mean_cluster 1 1 [⟨0, 0, 1, 1⟩, ⟨0, 0, 3, 3⟩] [0] (1/100000)
      = .ok none := by
  rw [k_mean_cluster]
  have hc : ([0] : List Nat).map
      (fun i => ([⟨0, 0, 1, 1⟩, ⟨0, 0, 3, 3⟩] : List Box).getD i ⟨0, 0, 0, 0⟩)
      = [⟨0, 0, 1, 1⟩] := rfl
  rw [hc, c6_run_seed, ok_bind]
  dsimp only
  show kMeanLoop (0 + 1) 1 [⟨0, 0, 1, 1⟩, ⟨0, 0, 3, 3⟩] (1/100000)
      [⟨0, 0, 2, 2⟩] (8/9) = .ok none
  rw [kMeanLoop_succ, c6_run_mean, ok_bind]
  dsimp only
  rw [if_neg (by rw [abs_sub_lt_iff]; norm_num)]
  rfl

/-- Witness for C6 (amended): one box, so the mean anchor is the box
itself and the driver converges with fuel 2. -/
theorem spec_C6_witness :
    ∃ avg, k_mean_cluster 2 1 [⟨0, 0, 1, 1⟩] [0] 1
      = .ok (some ([meanBox [⟨0, 0, 1, 1⟩]], avg)) :=
  spec_C6 [⟨0, 0, 1, 1⟩] 0 1 2 (by simp)
    (by
      intro b hb
      rw [List.mem_singleton] at hb
      subst hb
      norm_num [validBox])
    (by norm_num) (by omega)

/-- One clustering step of the C7 witness instance. -/
theorem c7_run_eval :
    run_k_mean 1 [⟨0, 0, 4, 4⟩] [⟨0, 0, 4, 4⟩] = .ok ([⟨0, 0, 4, 4⟩], 1, 0) := by
  norm_num [run_k_mean, processBox, assign, assignAux, box_iou, min_def,
    initState, updateAnchors, iouSum, groupCounter, List.foldlM,
    List.replicate, List.set, List.zipWith, List.zip, List.foldl]

/-- The C7 witness instance converges. -/
theorem c7_cluster_eval :
    k_mean_cluster 1 1 [⟨0, 0, 4, 4⟩] [0] 1
      = .ok (some ([⟨0, 0, 4, 4⟩], 1)) := by
  rw [k_mean_cluster]
  have hc : ([0] : List Nat).map
      (fun i => ([⟨0, 0, 4, 4⟩] : List Box).getD i ⟨0, 0, 0, 0⟩)
      = [⟨0, 0, 4, 4⟩] := rfl
  rw [hc, c7_run_eval, ok_bind]
  dsimp only
  show kMeanLoop (0 + 1) 1 [⟨0, 0, 4, 4⟩] 1 [⟨0, 0, 4, 4⟩] 0 = _
  rw [kMeanLoop_succ, c7_run_eval, ok_bind]
  dsimp only
  rw [if_pos (by rw [abs_sub_lt_iff]; norm_num)]

/-- Witness for C7 (amended): the converged concrete run returns one
anchor and an avg-IoU of 1, inside `[0, 1]`. -/
theorem spec_C7_witness :
    ([⟨0, 0, 4, 4⟩] : List Box).length = 1 ∧
    (0 : ℚ) ≤ 1 ∧ (1 : ℚ) ≤ 1 :=
  spec_C7 1 1 [⟨0, 0, 4, 4⟩] [0] 1 [⟨0, 0, 4, 4⟩] 1
    (by
      intro b hb
      rw [List.mem_singleton] at hb
      subst hb
      norm_num [validBox])
    c7_cluster_eval

/-- One clustering step of the C2/C7 witness instances: a single box
that is its own centroid, zero loss. -/
theorem c2_run_eval :
    run_k_mean 1 [⟨0, 0, 2, 2⟩] [⟨0, 0, 2, 2⟩] = .ok ([⟨0, 0, 2, 2⟩], 1, 0) := by
  norm_num [run_k_mean, processBox, assign, assignAux, box_iou, min_def,
    initState, updateAnchors, iouSum, groupCounter, List.foldlM,
    List.replicate, List.set, List.zipWith, List.zip, List.foldl]

/-- Witness for C2: with one box the losses stabilise at 0, the first
check (round `m = 0`) converges, and the driver returns the anchors and
avg-IoU of step 1. -/
theorem spec_C2_witness :
    k_mean_cluster 1 1 [⟨0, 0, 2, 2⟩] [0] 1
      = .ok (some ([⟨0, 0, 2, 2⟩], 1)) := by
  have h := spec_C2 1 1 0 [⟨0, 0, 2, 2⟩] [0] 1
    (fun _ => [⟨0, 0, 2, 2⟩]) (fun _ => 1) (fun _ => 0)
    (by simpa [List.getD, List.get?] using c2_run_eval)
    (fun _ => c2_run_eval)
    (by norm_num)
    (by omega)
    (by omega)
  simpa using h

end GenerateAnchors
